import Mathlib

set_option maxHeartbeats 1000000

namespace Scrapper

/-! Shallow embedding of `src/extract_comic_structure.py` and of the binding
extraction in `src/comic_scraper/spiders/bullseye_press_spider.py`.

Python strings are modelled as `String` / `List Char`; regular-expression
searches are modelled by explicit scanning functions whose backtracking order
follows the Python `re` engine (leftmost match, greedy/lazy as in the
pattern).  `.` is modelled as "any character except newline", `$` as end of
string, `\s` as the ASCII whitespace class, `\d` as ASCII digits and `\w` as
ASCII word characters. -/

/-- ASCII whitespace, the characters matched by the regex class `\s`
and stripped by Python `str.strip()`. -/
def isPySpace (c : Char) : Bool :=
  c = ' ' || c = '\t' || c = '\n' || c = '\r' || c = '\x0b' || c = '\x0c'

/-- ASCII digit, the regex class `\d`. -/
def isDigitCh (c : Char) : Bool := '0' ≤ c && c ≤ '9'

/-- ASCII word character, the regex class `\w` (used for `\b` boundaries). -/
def isWordCh (c : Char) : Bool :=
  ('a' ≤ c && c ≤ 'z') || ('A' ≤ c && c ≤ 'Z') || isDigitCh c || c = '_'

/-- Lowercase a character list, modelling Python `str.lower()`. -/
def lowList (cs : List Char) : List Char := cs.map Char.toLower

/-- Python `str.lower()`. -/
def pyLower (s : String) : String := ⟨lowList s.toList⟩

/-- Python `str.strip()` on a character list. -/
def pyStripL (cs : List Char) : List Char :=
  ((cs.dropWhile isPySpace).reverse.dropWhile isPySpace).reverse

/-- Python `str.strip()`. -/
def pyStrip (s : String) : String := ⟨pyStripL s.toList⟩

/-- Case-insensitive literal match: if the lowercased input starts with the
(lowercase) pattern, return the rest of the input. -/
def ciMatch : List Char → List Char → Option (List Char)
  | [], s => some s
  | _, [] => none
  | p :: ps, c :: cs => if c.toLower = p then ciMatch ps cs else none

/-- Substring test on character lists, modelling Python `needle in hay`. -/
def isSubL (needle : List Char) : List Char → Bool
  | [] => needle.isEmpty
  | c :: cs => needle.isPrefixOf (c :: cs) || isSubL needle cs

/-- Python `needle in hay` for strings. -/
def strContains (hay needle : String) : Bool := isSubL needle.toList hay.toList

/-- Scan all suffixes of the input from the left and return the first
successful match: the semantics of an unanchored `re.search`. -/
def scanFirst {α : Type} (f : List Char → Option α) : List Char → Option α
  | [] => f []
  | c :: cs => (f (c :: cs)).orElse fun _ => scanFirst f cs

/-- Numeric value of a digit run, modelling Python `int` on a `\d+` group. -/
def digitsVal (ds : List Char) : Nat :=
  ds.foldl (fun n c => 10 * n + (c.toNat - '0'.toNat)) 0

/-- The apostrophe character. -/
def apos : Char := '\''

/-! ## Item records (§3 of the spec)

One scraped record: a string-keyed mapping with optional fields.  `none`
models an absent key.  `additional_info` is the explicit metadata table of
the bullseye spider, an ordered string-to-string mapping. -/

structure Item where
  name : Option String := none
  title : Option String := none
  series : Option String := none
  issue : Option Nat := none
  language : Option String := none
  cover_artist : Option String := none
  binding : Option String := none
  price : Option String := none
  original_price : Option String := none
  url : Option String := none
  cover_image_url : Option String := none
  pages : Option Nat := none
  description : Option String := none
  publisher : Option String := none
  additional_info : List (String × String) := []
deriving DecidableEq, Repr

/-! ## Record classifier (`is_publisher_item`, `is_combo_item`) -/

/-- `is_publisher_item`: has a `name` key and no `title` key. -/
def is_publisher_item (item : Item) : Bool :=
  item.name.isSome && item.title.isNone

/-- The combo keyword list of `is_combo_item`, in source order. -/
def combo_keywords : List String :=
  ["combo", "all variants", "bundle", "set", "pack",
   "combo of", "all variant", "variants combo"]

/-- `is_combo_item`: the lowercased title contains any combo keyword. -/
def is_combo_item (item : Item) : Bool :=
  let title := pyLower (item.title.getD "")
  combo_keywords.any fun keyword => strContains title keyword

/-! ## `normalize_series_name`

Three regex rules tried in order; each returns only when the stripped base
name is nonempty and longer than two characters. -/

/-- Tail matcher for `\s+Origins\s*$` (case-insensitive). -/
def originsTail (cs : List Char) : Bool :=
  let rest := cs.dropWhile isPySpace
  !(cs.takeWhile isPySpace).isEmpty &&
    (match ciMatch ['o','r','i','g','i','n','s'] rest with
     | some r => r.all isPySpace
     | none => false)

/-- Group 1 of `^(.+?)\s+Origins\s*$`: the shortest nonempty newline-free
prefix whose remainder matches the tail (lazy `(.+?)` semantics). -/
def originsGroup1 (cs : List Char) : Option (List Char) :=
  (List.range cs.length).findSome? fun k =>
    if decide (0 < k) && (cs.take k).all (fun c => !(c = '\n')) &&
        originsTail (cs.drop k) then
      some (cs.take k)
    else none

/-- After a separator, the regex tail `\s*.+$` must match the remainder:
some split into a whitespace run followed by a nonempty newline-free body. -/
def sepTailOk (after : List Char) : Bool :=
  (List.range after.length).any fun j =>
    (after.take j).all isPySpace && (after.drop j).all fun c => !(c = '\n')

/-- Split a character list at the first separator character, returning the
part before it and the part after it. -/
def splitAtFirst (isSep : Char → Bool) : List Char → Option (List Char × List Char)
  | [] => none
  | c :: cs =>
    if isSep c then some ([], cs)
    else
      match splitAtFirst isSep cs with
      | some (a, b) => some (c :: a, b)
      | none => none

/-- The "Origins" rule of `normalize_series_name`: strip a trailing
"Origins" if the stripped base is nonempty and longer than 2 characters. -/
def ruleOrigins (cs : List Char) : Option String :=
  match originsGroup1 cs with
  | some g =>
    let base := pyStripL g
    if !base.isEmpty && decide (base.length > 2) then some (String.mk base) else none
  | none => none

/-- The colon / dash truncation rules of `normalize_series_name`: truncate
at the first separator when the regex `^([^S]+?)(?:\s*S\s*.+)?$` matches with
a meaningful split.  (The source's `base_name != series_name` check is
subsumed: the base contains no separator while the original does.) -/
def ruleSep (isSep : Char → Bool) (cs : List Char) : Option String :=
  match splitAtFirst isSep cs with
  | some (before, after) =>
    if sepTailOk after then
      let base := pyStripL before
      if !base.isEmpty && decide (base.length > 2) then some (String.mk base) else none
    else none
  | none => none

/-- `normalize_series_name`: ordered truncation rules over the raw name. -/
def normalize_series_name (series_name : String) : String :=
  if series_name = "" then series_name
  else
    let cs := series_name.toList
    (((ruleOrigins cs).orElse fun _ => ruleSep (fun c => c = ':') cs).orElse fun _ =>
        ruleSep (fun c => c = '-' || c = '–') cs).getD series_name

/-! ## `extract_combo_issues` -/

/-- Match `issue\s+(\d+)(?:\s*[-–]\s*(\d+))?` at one position. -/
def comboRangeAt (cs : List Char) : Option (Nat × Option Nat) :=
  match ciMatch ['i','s','s','u','e'] cs with
  | none => none
  | some s1 =>
    if (s1.takeWhile isPySpace).isEmpty then none
    else
      let s2 := s1.dropWhile isPySpace
      let d1 := s2.takeWhile isDigitCh
      let s3 := s2.dropWhile isDigitCh
      if d1.isEmpty then none
      else
        match s3.dropWhile isPySpace with
        | c :: s5 =>
          if c = '-' || c = '–' then
            let d2 := (s5.dropWhile isPySpace).takeWhile isDigitCh
            if d2.isEmpty then some (digitsVal d1, none)
            else some (digitsVal d1, some (digitsVal d2))
          else some (digitsVal d1, none)
        | [] => some (digitsVal d1, none)

/-- Greedy repetitions of `(?:\s*[,&]\s*\d+)` with fuel (each repetition
consumes at least the separator character). -/
def comboListReps : Nat → List Char → List Nat
  | 0, _ => []
  | fuel + 1, cs =>
    match cs.dropWhile isPySpace with
    | c :: s2 =>
      if c = ',' || c = '&' then
        let s3 := s2.dropWhile isPySpace
        let d := s3.takeWhile isDigitCh
        if d.isEmpty then [] else digitsVal d :: comboListReps fuel (s3.dropWhile isDigitCh)
      else []
    | [] => []

/-- Match `issue\s+(\d+(?:\s*[,&]\s*\d+)+)` at one position; the numbers in
group 1 are exactly the leading number and the repetition numbers. -/
def comboListAt (cs : List Char) : Option (List Nat) :=
  match ciMatch ['i','s','s','u','e'] cs with
  | none => none
  | some s1 =>
    if (s1.takeWhile isPySpace).isEmpty then none
    else
      let s2 := s1.dropWhile isPySpace
      let d1 := s2.takeWhile isDigitCh
      let s3 := s2.dropWhile isDigitCh
      if d1.isEmpty then none
      else
        match comboListReps s3.length s3 with
        | [] => none
        | reps => some (digitsVal d1 :: reps)

/-- `re.findall(r'\bissue\s+(\d+)\b', title)`: all non-overlapping matches,
tracking the previous character for the word-boundary checks. -/
def standaloneIssues : Nat → Option Char → List Char → List Nat
  | 0, _, _ => []
  | fuel + 1, prev, cs =>
    let bOk := match prev with | none => true | some p => !isWordCh p
    let attempt : Option (Nat × Option Char × List Char) :=
      if bOk then
        match ciMatch ['i','s','s','u','e'] cs with
        | none => none
        | some s1 =>
          if (s1.takeWhile isPySpace).isEmpty then none
          else
            let s2 := s1.dropWhile isPySpace
            let d := s2.takeWhile isDigitCh
            let s3 := s2.dropWhile isDigitCh
            if d.isEmpty then none
            else
              let after := match s3 with | [] => true | c :: _ => !isWordCh c
              if after then some (digitsVal d, d.getLast?, s3) else none
      else none
    match attempt with
    | some (n, lastc, rest) => n :: standaloneIssues fuel lastc rest
    | none =>
      match cs with
      | [] => []
      | c :: cs' => standaloneIssues fuel (some c) cs'

/-- `re.findall(r'book\s+(\d+)', title)`: all non-overlapping matches. -/
def bookIssues : Nat → List Char → List Nat
  | 0, _ => []
  | fuel + 1, cs =>
    let attempt : Option (Nat × List Char) :=
      match ciMatch ['b','o','o','k'] cs with
      | none => none
      | some s1 =>
        if (s1.takeWhile isPySpace).isEmpty then none
        else
          let s2 := s1.dropWhile isPySpace
          let d := s2.takeWhile isDigitCh
          if d.isEmpty then none else some (digitsVal d, s2.dropWhile isDigitCh)
    match attempt with
    | some (n, rest) => n :: bookIssues fuel rest
    | none =>
      match cs with
      | [] => []
      | _ :: cs' => bookIssues fuel cs'

/-- Ascending insertion into a sorted list of naturals. -/
def insertNatLe (n : Nat) : List Nat → List Nat
  | [] => [n]
  | m :: t => if n ≤ m then n :: m :: t else m :: insertNatLe n t

/-- Ascending sort of a list of naturals. -/
def sortNats (l : List Nat) : List Nat := l.foldr insertNatLe []

/-- `extract_combo_issues`: range pattern, then list pattern, then
standalone "Issue N" mentions, then "Book N" mentions, then the record's
own `issue` field (Python truthiness: `0` does not count); the result is
deduplicated and sorted ascending. -/
def extract_combo_issues (combo_item : Item) : List Nat :=
  let title := (combo_item.title.getD "").toList
  let issues1 : List Nat :=
    match scanFirst comboRangeAt title with
    | some (s, some e) => List.range' s (e + 1 - s)
    | some (s, none) => [s]
    | none => []
  let issues2 := if issues1.isEmpty then (scanFirst comboListAt title).getD [] else issues1
  let issues3 := if issues2.isEmpty then standaloneIssues title.length none title else issues2
  let issues4 := if issues3.isEmpty then bookIssues title.length title else issues3
  let issues5 :=
    if issues4.isEmpty then
      match combo_item.issue with
      | some n => if decide (n ≠ 0) then [n] else []
      | none => []
    else issues4
  sortNats issues5.eraseDups

/-! ## Issue-number inference for regular records -/

/-- Match `issue\s+#?(\d+)` at one position. -/
def issueNumAt (cs : List Char) : Option Nat :=
  match ciMatch ['i','s','s','u','e'] cs with
  | none => none
  | some s1 =>
    if (s1.takeWhile isPySpace).isEmpty then none
    else
      let s2 := s1.dropWhile isPySpace
      let s3 := match s2 with | '#' :: t => t | _ => s2
      let d := s3.takeWhile isDigitCh
      if d.isEmpty then none else some (digitsVal d)

/-- Match `book\s+(\d+)` at one position. -/
def bookNumAt (cs : List Char) : Option Nat :=
  match ciMatch ['b','o','o','k'] cs with
  | none => none
  | some s1 =>
    if (s1.takeWhile isPySpace).isEmpty then none
    else
      let d := (s1.dropWhile isPySpace).takeWhile isDigitCh
      if d.isEmpty then none else some (digitsVal d)

/-- Match `vol\.?\s*(\d+)` at one position. -/
def volNumAt (cs : List Char) : Option Nat :=
  match ciMatch ['v','o','l'] cs with
  | none => none
  | some s1 =>
    let s2 := match s1 with | '.' :: t => t | _ => s1
    let d := (s2.dropWhile isPySpace).takeWhile isDigitCh
    if d.isEmpty then none else some (digitsVal d)

/-- Issue-number determination of `organize_comic_data` for a non-combo
record: the record's own `issue` field, else the first "Issue #N", else
"Book N", else "Vol. N" pattern in the title, else absent. -/
def inferIssue (item : Item) : Option Nat :=
  match item.issue with
  | some n => some n
  | none =>
    let t := (item.title.getD "").toList
    match scanFirst issueNumAt t with
    | some n => some n
    | none =>
      match scanFirst bookNumAt t with
      | some n => some n
      | none => scanFirst volNumAt t

/-! ## `extract_variant_info`

The variant-description regex is
`variant\s+(?:cover\s+)?(?:by\s+)?([^–-]+)` (case-insensitive, unanchored);
the matchers below follow the engine's backtracking order: the optional
groups prefer to match, and `\s+` yields back characters one at a time. -/

/-- A character the class `[^–-]` accepts. -/
def notDash (c : Char) : Bool := !(c = '–' || c = '-')

/-- The group `([^–-]+)`: the maximal nonempty run of non-dash characters. -/
def grp1 (s : List Char) : Option (List Char) :=
  let g := s.takeWhile notDash
  if g.isEmpty then none else some g

/-- Match `\s+` then continue: try the greedy split first, then yield back
whitespace one character at a time; fail when no whitespace is present. -/
def wsPlusThen (k : List Char → Option (List Char)) (s : List Char) : Option (List Char) :=
  let m := (s.takeWhile isPySpace).length
  (List.range m).findSome? fun j => k (s.drop (m - j))

/-- Match `(?:by\s+)?` then the group. -/
def afterBy (s : List Char) : Option (List Char) :=
  match ciMatch ['b','y'] s with
  | some s' =>
    match wsPlusThen grp1 s' with
    | some g => some g
    | none => grp1 s
  | none => grp1 s

/-- Match `(?:cover\s+)?` then `(?:by\s+)?` then the group. -/
def afterCover (s : List Char) : Option (List Char) :=
  match ciMatch ['c','o','v','e','r'] s with
  | some s' =>
    match wsPlusThen afterBy s' with
    | some g => some g
    | none => afterBy s
  | none => afterBy s

/-- Group 1 of the first match of the variant-description regex. -/
def variantGroup1 (title : List Char) : Option (List Char) :=
  scanFirst
    (fun s =>
      match ciMatch ['v','a','r','i','a','n','t'] s with
      | some s' => wsPlusThen afterCover s'
      | none => none)
    title

/-- For the cleanup sub `\s*(cover|by|variant).*$`: after the keyword the
tail `.*$` succeeds when the rest is newline-free, or newline-free up to a
single final newline. -/
def subTailOk (rest : List Char) : Bool :=
  rest.all (fun c => !(c = '\n')) ||
    (match rest.getLast? with
     | some c =>
       c = '\n' && rest.dropLast.all fun c' => !(c' = '\n')
     | none => false)

/-- Does the cleanup pattern `\s*(cover|by|variant).*$` match starting at
this position? -/
def cleanupKwAt (s : List Char) : Bool :=
  let r := s.dropWhile isPySpace
  [['c','o','v','e','r'], ['b','y'], ['v','a','r','i','a','n','t']].any fun kw =>
    match ciMatch kw r with
    | some rest => subTailOk rest
    | none => false

/-- Apply the cleanup sub: truncate at the leftmost match of
`\s*(cover|by|variant).*$` (the match always extends to the end, so
replacement by the empty string is truncation). -/
def truncAtCleanup : List Char → List Char
  | [] => []
  | c :: cs => if cleanupKwAt (c :: cs) then [] else c :: truncAtCleanup cs

/-- The cleaned variant description: `group(1).strip()`, then the cleanup
sub, then `strip()` again. -/
def cleanVariantDesc (g : List Char) : List Char :=
  pyStripL (truncAtCleanup (pyStripL g))

/-- The string "Director's Cut" (apostrophe spelled out). -/
def directorsCutLabel : String := "Director" ++ apos.toString ++ "s Cut"

/-- The lowercase search needle "director's cut". -/
def directorsCutNeedle : List Char :=
  "director".toList ++ [apos] ++ "s cut".toList

/-- The variant-type keyword ladder of `extract_variant_info`: at most one
entry, first matching keyword wins. -/
def variantTypesOf (item : Item) : List String :=
  let title := item.title.getD ""
  let tl := lowList title.toList
  if isSubL "variant".toList tl then
    match variantGroup1 title.toList with
    | some g =>
      let vd := cleanVariantDesc g
      if !vd.isEmpty && decide (vd.length < 50) then [String.mk vd] else []
    | none => ["Variant"]
  else if isSubL "regular".toList tl || isSubL "default".toList tl then ["Regular"]
  else if isSubL "blank".toList tl then ["Blank"]
  else if isSubL "homage".toList tl then ["Homage"]
  else if isSubL "wraparound".toList tl then ["Wraparound"]
  else if isSubL "hand painted".toList tl || isSubL "hand-painted".toList tl then ["Hand Painted"]
  else if isSubL "sketch".toList tl then ["Sketch"]
  else if isSubL "directors cut".toList tl || isSubL directorsCutNeedle tl then [directorsCutLabel]
  else if isSubL "action figure".toList tl then ["Action Figure"]
  else if isSubL "poster".toList tl then ["Poster"]
  else []

/-- The "by artist" step: append `by <cover_artist>` when the artist is
nonempty and not already a substring of the joined variant types. -/
def withArtist (item : Item) (variant_types : List String) : List String :=
  let cover_artist := item.cover_artist.getD ""
  if cover_artist != "" &&
      !isSubL cover_artist.toList (String.intercalate " " variant_types).toList then
    variant_types ++ ["by " ++ cover_artist]
  else variant_types

/-- The binding step: append the binding when nonempty and not (lowercased)
"paperback". -/
def withBinding (item : Item) (variant_types : List String) : List String :=
  let binding := item.binding.getD ""
  if binding != "" && pyLower binding != "paperback" then variant_types ++ [binding]
  else variant_types

/-- `extract_variant_info`: language part, variant-type part, artist part,
binding part, joined by single spaces; "Standard" when everything is
absent. -/
def extract_variant_info (item : Item) : String :=
  let language := item.language.getD ""
  let variant_parts : List String := if language != "" then [language] else []
  let variant_types := withBinding item (withArtist item (variantTypesOf item))
  let all_parts := variant_parts ++ variant_types
  let all_parts := if all_parts.isEmpty then ["Standard"] else all_parts
  pyStrip (String.intercalate " " all_parts)

/-! ## Association lists modelling Python dicts

Python dicts preserve insertion order; assignment to an existing key updates
it in place, assignment to a fresh key appends it.  `updateAssoc` models
`defaultdict` access-and-mutate, `setAssoc` plain assignment, `aGet`
lookup. -/

/-- Update the first entry with the given key in place, or append a new
entry obtained by applying `f` to the default (defaultdict semantics). -/
def updateAssoc {κ β : Type} [DecidableEq κ] (key : κ) (f : β → β) (dflt : β) :
    List (κ × β) → List (κ × β)
  | [] => [(key, f dflt)]
  | (a, b) :: t => if a = key then (a, f b) :: t else (a, b) :: updateAssoc key f dflt t

/-- Plain dict assignment `d[key] = v`. -/
def setAssoc {κ β : Type} [DecidableEq κ] (key : κ) (v : β) (l : List (κ × β)) :
    List (κ × β) :=
  updateAssoc key (fun _ => v) v l

/-- Dict lookup: the first entry with the given key. -/
def aGet {κ β : Type} [DecidableEq κ] (key : κ) : List (κ × β) → Option β
  | [] => none
  | (a, b) :: t => if a = key then some b else aGet key t

/-! ## The reconciliation engine (`organize_comic_data`) -/

/-- One combo-table value: derived issue list plus the source record. -/
structure ComboEntry where
  issues : List Nat
  item : Item
deriving DecidableEq, Repr

/-- One issue bucket: variant entries `(descriptor, record)` in insertion
order. -/
abbrev Bucket := List (String × Item)

/-- The per-series map from issue number (or absent) to bucket. -/
abbrev SeriesMap := List (Option Nat × Bucket)

/-- The reconciliation result: `series` and `combos` indices. -/
structure Organized where
  series : List (String × SeriesMap) := []
  combos : List (String × List (String × ComboEntry)) := []
deriving DecidableEq, Repr

/-- The loop body of `organize_comic_data` for one record. -/
def processItem (acc : Organized) (item : Item) : Organized :=
  if is_publisher_item item then acc
  else
    match item.series with
    | none => acc
    | some sn =>
      if sn = "" then acc
      else
        let ns := normalize_series_name sn
        if is_combo_item item then
          let combo_title := item.title.getD "Unknown Combo"
          { acc with
            combos := updateAssoc ns
              (setAssoc combo_title ⟨extract_combo_issues item, item⟩) [] acc.combos }
        else
          let k := inferIssue item
          let e := (extract_variant_info item, item)
          { acc with
            series := updateAssoc ns (updateAssoc k (fun b => b ++ [e]) []) [] acc.series }

/-- The sort key order of the final per-series sort: numbered issues
ascending, the absent-number bucket last (Python key
`(x is None, x if x is not None else inf)`). -/
def issueKeyLe : Option Nat → Option Nat → Bool
  | none, none => true
  | none, some _ => false
  | some _, none => true
  | some a, some b => a ≤ b

/-- Ordered insertion of one bucket by `issueKeyLe`. -/
def insertBucket (x : Option Nat × Bucket) : SeriesMap → SeriesMap
  | [] => [x]
  | y :: t => if issueKeyLe x.1 y.1 then x :: y :: t else y :: insertBucket x t

/-- Sort a series' buckets by issue number, absent last. -/
def sortBuckets (m : SeriesMap) : SeriesMap := m.foldr insertBucket []

/-- `organize_comic_data` on an in-memory batch: single pass accumulating
both indices, then per-series issue sort. -/
def organize_comic_data (batch : List Item) : Organized :=
  let o := batch.foldl processItem {}
  { series := o.series.map fun p => (p.1, sortBuckets p.2), combos := o.combos }

/-! ## `generate_code` -/

/-- Collapse every maximal run of `p`-characters into the single
character `r` (the subs `\s+ -> " "` and `_+ -> "_"`). -/
def collapseRuns (p : Char → Bool) (r : Char) (cs : List Char) : List Char :=
  cs.foldr
    (fun c acc =>
      if p c then
        match acc with
        | c' :: _ => if c' = r then acc else r :: acc
        | [] => [r]
      else c :: acc)
    []

/-- `generate_code(text, prefix)`: lowercase, keep `[a-z0-9\s]`, collapse
whitespace, strip, spaces to underscores, collapse and strip underscores,
truncate to 50 characters, prepend the prefix. -/
def generate_code (text : String) (pfx : String) : String :=
  if text = "" then pfx ++ "_unknown"
  else
    let code := lowList text.toList
    let code := code.filter fun c => ('a' ≤ c && c ≤ 'z') || ('0' ≤ c && c ≤ '9') || isPySpace c
    let code := collapseRuns isPySpace ' ' code
    let code := (pyStripL code).map fun c => if c = ' ' then '_' else c
    let code := collapseRuns (fun c => c = '_') '_' code
    let code := ((code.dropWhile fun c => c = '_').reverse.dropWhile fun c => c = '_').reverse
    let code := if decide (code.length > 50) then code.take 50 else code
    if code.isEmpty then pfx ++ "_unknown" else pfx ++ "_" ++ String.mk code

/-! ## Lexicographic sort of dict keys (Python `sorted` over strings) -/

/-- Code-point lexicographic order on character lists. -/
def charListLe : List Char → List Char → Bool
  | [], _ => true
  | _ :: _, [] => false
  | a :: as, b :: bs => if a = b then charListLe as bs else decide (a < b)

/-- Code-point lexicographic order on strings, as Python `<=` on `str`. -/
def strLe (a b : String) : Bool := charListLe a.toList b.toList

/-- Ordered insertion of a string by `strLe`. -/
def insertStrLe (s : String) : List String → List String
  | [] => [s]
  | t :: ts => if strLe s t then s :: t :: ts else t :: insertStrLe s ts

/-- `sorted(keys)` for string keys. -/
def sortStrs (l : List String) : List String := l.foldr insertStrLe []

/-! ## Hierarchical projection (`format_as_hierarchical_json`) -/

/-- One emitted variant entry of the hierarchical projection. -/
structure HVariant where
  variant : String
  price : Option String
  url : Option String
  title : Option String
deriving DecidableEq, Repr

/-- One emitted combo entry of the hierarchical projection. -/
structure HCombo where
  title : String
  issues : List Nat
  price : Option String
  url : Option String
deriving DecidableEq, Repr

/-- The hierarchical projection output. -/
structure HOut where
  series : List (String × List (String × List HVariant))
  combos : List (String × List HCombo)
deriving DecidableEq, Repr

/-- `"issue_<N>"` or `"no_issue"`. -/
def issueKeyStr : Option Nat → String
  | none => "no_issue"
  | some n => "issue_" ++ toString n

/-- `format_as_hierarchical_json`: series in sorted order, buckets in
stored order, variants in stored order; combos per series in insertion
order with series in sorted order. -/
def format_as_hierarchical_json (organized : Organized) : HOut :=
  let series_data := (sortStrs (organized.series.map Prod.fst)).map fun sn =>
    let m := (aGet sn organized.series).getD []
    (sn, m.map fun kb =>
      (issueKeyStr kb.1, kb.2.map fun ve => HVariant.mk ve.1 ve.2.price ve.2.url ve.2.title))
  let combo_data := (sortStrs (organized.combos.map Prod.fst)).map fun sn =>
    let m := (aGet sn organized.combos).getD []
    (sn, m.map fun tc => HCombo.mk tc.1 tc.2.issues tc.2.item.price tc.2.item.url)
  ⟨series_data, combo_data⟩

/-! ## Object-oriented projection (`format_as_object_oriented_json`) -/

/-- A JSON value, the output currency of the object-oriented projection. -/
inductive J where
  | s (v : String)
  | n (v : Nat)
  | arr (vs : List J)
  | obj (fields : List (String × J))

/-- Build an object from optional fields, omitting absent values (the
source's "remove None values" comprehension). -/
def objSparse (fields : List (String × Option J)) : J :=
  J.obj (fields.filterMap fun p => p.2.map fun v => (p.1, v))

/-- The first item of the first nonempty bucket of a series. -/
def firstItemOf (m : SeriesMap) : Option Item :=
  m.findSome? fun kb => kb.2.head?.map fun ve => ve.2

/-- One emitted series descriptor object. -/
def mkSeriesObj (organized : Organized) (series_name : String) : J :=
  let m := (aGet series_name organized.series).getD []
  let first_item := firstItemOf m
  objSparse [
    ("object", some (J.s "series")),
    ("name", some (J.s series_name)),
    ("code", some (J.s (generate_code series_name "ser"))),
    ("publisher", (first_item.bind fun it => it.publisher).map J.s),
    ("url", none),
    ("description", none)]

/-- Variant-object language: the record's field, else inferred from the
descriptor string. -/
def variantLanguage (variant_info : String) (it : Item) : Option String :=
  let language := it.language.getD ""
  if language != "" then some language
  else
    let vl := pyLower variant_info
    if strContains vl "hindi" then some "Hindi"
    else if strContains vl "english" then some "English"
    else if strContains vl "malayalam" then some "Malayalam"
    else none

/-- Variant-object binding: the record's field, else inferred from the
descriptor string. -/
def variantBinding (variant_info : String) (it : Item) : Option String :=
  let binding := it.binding.getD ""
  if binding != "" then some binding
  else
    let vl := pyLower variant_info
    if strContains vl "hardcover" || strContains vl "hard cover" then some "Hardcover"
    else if strContains vl "hardbound" || strContains vl "hard bound" then some "Hardbound"
    else if strContains vl "paperback" || strContains vl "paper back" then some "Paperback"
    else if strContains vl "softcover" then some "Softcover"
    else none

/-- One emitted variant object (`idx` is the 1-based positional counter). -/
def mkVariantObj (issue_name issue_code_base : String) (idx : Nat) (ve : String × Item) : J :=
  let variant_info := ve.1
  let it := ve.2
  objSparse [
    ("object", some (J.s "issue_variant")),
    ("name", some (J.s (issue_name ++ " - " ++ variant_info))),
    ("code", some (J.s (generate_code (issue_code_base ++ " variant " ++ toString idx) "var"))),
    ("language", (variantLanguage variant_info it).map J.s),
    ("binding", (variantBinding variant_info it).map J.s),
    ("price", it.price.map J.s),
    ("original_price", it.original_price.map J.s),
    ("url", it.url.map J.s),
    ("cover_image_url", it.cover_image_url.map J.s),
    ("pages", it.pages.map J.n),
    ("description", it.description.map J.s)]

/-- One emitted issue object with its embedded variant array. -/
def mkIssueObj (series_name series_code : String) (k : Option Nat) (bucket : Bucket) : J :=
  let issue_name := match k with
    | none => series_name
    | some n => series_name ++ " #" ++ toString n
  let issue_code := match k with
    | none => generate_code (series_name ++ " no issue") "iss"
    | some n => generate_code (series_name ++ " issue " ++ toString n) "iss"
  let base := if "iss_".isPrefixOf issue_code then issue_code.drop 4 else issue_code
  objSparse [
    ("object", some (J.s "issue")),
    ("name", some (J.s issue_name)),
    ("code", some (J.s issue_code)),
    ("series_code", some (J.s series_code)),
    ("issue_number", k.map J.n),
    ("variants", some (J.arr (bucket.enum.map fun p => mkVariantObj issue_name base (p.1 + 1) p.2)))]

/-- `format_as_object_oriented_json`: series descriptor objects in sorted
name order, then one list object of issue objects (empty buckets skipped). -/
def format_as_object_oriented_json (organized : Organized) : List J :=
  let sortedNames := sortStrs (organized.series.map Prod.fst)
  let seriesObjs := sortedNames.map fun sn => mkSeriesObj organized sn
  let issueObjs := sortedNames.flatMap fun sn =>
    let series_code := generate_code sn "ser"
    let m := (aGet sn organized.series).getD []
    m.filterMap fun kb =>
      if kb.2.isEmpty then none
      else some (mkIssueObj sn series_code kb.1 kb.2)
  seriesObjs ++ [J.obj [("object", J.s "list"), ("data", J.arr issueObjs)]]

/-! ## Binding extraction of the bullseye press spider

From `parse_product_detail`: strategy 1 searches the title with the word
bounded regex patterns, strategy 2 scans the `additional_info` values with
substring checks, strategy 3 searches the description with the regex
patterns again; the first strategy producing a value wins. -/

/-- Does `\b(W1\s*W2)\b` match at this exact position? -/
def bHere (w1 w2 : List Char) (cs : List Char) : Bool :=
  match ciMatch w1 cs with
  | some r1 =>
    (match ciMatch w2 (r1.dropWhile isPySpace) with
     | some r2 => (match r2 with | [] => true | c :: _ => !isWordCh c)
     | none => false)
  | none => false

/-- Unanchored search for `\b(W1\s*W2)\b`, tracking the previous character
for the leading word boundary. -/
def bSearch (w1 w2 : List Char) : Option Char → List Char → Bool
  | prev, [] =>
    (match prev with | none => true | some p => !isWordCh p) && bHere w1 w2 []
  | prev, c :: t =>
    ((match prev with | none => true | some p => !isWordCh p) && bHere w1 w2 (c :: t)) ||
      bSearch w1 w2 (some c) t

/-- The binding regex patterns of the spider, in source order, with their
canonical labels. -/
def bindingPatterns : List ((List Char × List Char) × String) :=
  [((['h','a','r','d'], ['b','o','u','n','d']), "Hardbound"),
   ((['p','a','p','e','r'], ['b','a','c','k']), "Paperback"),
   ((['h','a','r','d'], ['c','o','v','e','r']), "Hardcover"),
   ((['s','o','f','t'], ['c','o','v','e','r']), "Softcover")]

/-- Strategy 1: the first binding pattern matching the title. -/
def titleBinding (title : String) : Option String :=
  bindingPatterns.findSome? fun pp =>
    if bSearch pp.1.1 pp.1.2 none title.toList then some pp.2 else none

/-- The keyword ladder applied to one `additional_info` value. -/
def valueBinding (v : String) : Option String :=
  let vl := pyLower v
  if strContains vl "hardbound" || strContains vl "hard bound" then some "Hardbound"
  else if strContains vl "paperback" || strContains vl "paper back" then some "Paperback"
  else if strContains vl "hardcover" || strContains vl "hard cover" then some "Hardcover"
  else if strContains vl "softcover" || strContains vl "soft cover" then some "Softcover"
  else none

/-- Strategy 2: the first `additional_info` value containing a binding
keyword. -/
def metaBinding (additional_info : List (String × String)) : Option String :=
  additional_info.findSome? fun kv => valueBinding kv.2

/-- Strategy 3: the first binding pattern matching the description. -/
def descBinding (description : String) : Option String :=
  if description = "" then none
  else
    bindingPatterns.findSome? fun pp =>
      if bSearch pp.1.1 pp.1.2 none description.toList then some pp.2 else none

/-- The spider's binding extraction: title, then metadata table, then
description; first hit wins. -/
def extractBinding (title : String) (additional_info : List (String × String))
    (description : String) : Option String :=
  match titleBinding title with
  | some b => some b
  | none =>
    match metaBinding additional_info with
    | some b => some b
    | none => descBinding description

/-! ## Lemmas about the association-list dict model -/

theorem aGet_updateAssoc {κ β : Type} [DecidableEq κ] (a k : κ) (f : β → β) (d : β)
    (l : List (κ × β)) :
    aGet a (updateAssoc k f d l) =
      if a = k then some (f ((aGet k l).getD d)) else aGet a l := by
  induction l with
  | nil =>
    by_cases h : a = k
    · subst h; simp [updateAssoc, aGet]
    · have h' : ¬ k = a := fun hh => h hh.symm
      simp [updateAssoc, aGet, h, h']
  | cons hd t ih =>
    obtain ⟨x, v⟩ := hd
    by_cases hxk : x = k
    · subst hxk
      by_cases hxa : x = a
      · subst hxa; simp [updateAssoc, aGet]
      · have hak : ¬ a = x := fun h => hxa h.symm
        simp [updateAssoc, aGet, hxa, hak]
    · by_cases hxa : x = a
      · subst hxa
        have hak : ¬ x = k := hxk
        simp [updateAssoc, aGet, hak]
      · simp [updateAssoc, aGet, hxk, hxa, ih]

theorem aGet_setAssoc {κ β : Type} [DecidableEq κ] (a k : κ) (v : β) (l : List (κ × β)) :
    aGet a (setAssoc k v l) = if a = k then some v else aGet a l := by
  simp [setAssoc, aGet_updateAssoc]

theorem aGet_mapVal {κ β γ : Type} [DecidableEq κ] (a : κ) (g : β → γ) (l : List (κ × β)) :
    aGet a (l.map fun p => (p.1, g p.2)) = (aGet a l).map g := by
  induction l with
  | nil => simp [aGet]
  | cons hd t ih =>
    obtain ⟨x, v⟩ := hd
    by_cases hxa : x = a <;> simp [aGet, hxa, ih]

theorem mem_of_aGet {κ β : Type} [DecidableEq κ] {k : κ} {v : β} {l : List (κ × β)}
    (h : aGet k l = some v) : (k, v) ∈ l := by
  induction l with
  | nil => simp [aGet] at h
  | cons hd t ih =>
    obtain ⟨x, w⟩ := hd
    by_cases hxk : x = k
    · subst hxk
      simp [aGet] at h
      simp [h]
    · simp [aGet, hxk] at h
      exact List.mem_cons_of_mem _ (ih h)

theorem aGet_eq_some_of_mem {κ β : Type} [DecidableEq κ] {k : κ} {v : β} {l : List (κ × β)}
    (hmem : (k, v) ∈ l) (hnd : (l.map Prod.fst).Nodup) : aGet k l = some v := by
  induction l with
  | nil => simp at hmem
  | cons hd t ih =>
    obtain ⟨x, w⟩ := hd
    simp only [List.map_cons, List.nodup_cons] at hnd
    rcases List.mem_cons.mp hmem with heq | htail
    · have hx : x = k := (congrArg Prod.fst heq).symm
      have hw : w = v := (congrArg Prod.snd heq).symm
      subst hx; subst hw
      simp [aGet]
    · have hxk : ¬ x = k := by
        intro hxk
        subst hxk
        exact hnd.1 (List.mem_map.mpr ⟨(x, v), htail, rfl⟩)
      simp only [aGet, hxk, if_false]
      exact ih htail hnd.2

theorem aGet_eq_none_iff {κ β : Type} [DecidableEq κ] {k : κ} {l : List (κ × β)} :
    aGet k l = none ↔ k ∉ l.map Prod.fst := by
  induction l with
  | nil => simp [aGet]
  | cons hd t ih =>
    obtain ⟨x, w⟩ := hd
    by_cases hxk : x = k
    · subst hxk; simp [aGet]
    · have hkx : ¬ k = x := fun h => hxk h.symm
      simp [aGet, hxk, hkx, ih]

theorem keys_updateAssoc {κ β : Type} [DecidableEq κ] (k : κ) (f : β → β) (d : β)
    (l : List (κ × β)) :
    (updateAssoc k f d l).map Prod.fst =
      if k ∈ l.map Prod.fst then l.map Prod.fst else l.map Prod.fst ++ [k] := by
  induction l with
  | nil => simp [updateAssoc]
  | cons hd t ih =>
    obtain ⟨x, v⟩ := hd
    by_cases hxk : x = k
    · subst hxk; simp [updateAssoc]
    · have hkx : ¬ k = x := fun h => hxk h.symm
      simp [updateAssoc, hxk, hkx, ih]
      by_cases hk : k ∈ t.map Prod.fst <;> simp [hk, hkx]

theorem nodup_keys_updateAssoc {κ β : Type} [DecidableEq κ] {k : κ} {f : β → β} {d : β}
    {l : List (κ × β)} (h : (l.map Prod.fst).Nodup) :
    ((updateAssoc k f d l).map Prod.fst).Nodup := by
  rw [keys_updateAssoc]
  by_cases hk : k ∈ l.map Prod.fst
  · simpa [hk]
  · simp only [hk, if_false]
    exact List.Nodup.append h (List.nodup_singleton k) (by simpa using hk)

theorem mem_updateAssoc_cases {κ β : Type} [DecidableEq κ] {p : κ × β} {k : κ} {f : β → β}
    {d : β} {l : List (κ × β)} (h : p ∈ updateAssoc k f d l) :
    p ∈ l ∨ p.2 = f d ∨ ∃ v, (k, v) ∈ l ∧ p.2 = f v := by
  induction l with
  | nil =>
    simp [updateAssoc] at h
    subst h
    simp
  | cons hd t ih =>
    obtain ⟨x, v⟩ := hd
    by_cases hxk : x = k
    · subst hxk
      simp only [updateAssoc, if_pos rfl] at h
      rcases List.mem_cons.mp h with heq | htail
      · subst heq
        right; right
        exact ⟨v, by simp, rfl⟩
      · exact Or.inl (List.mem_cons_of_mem _ htail)
    · simp only [updateAssoc, if_neg hxk] at h
      rcases List.mem_cons.mp h with heq | htail
      · subst heq; exact Or.inl (List.mem_cons_self _ _)
      · rcases ih htail with hl | hfd | ⟨w, hw, hpw⟩
        · exact Or.inl (List.mem_cons_of_mem _ hl)
        · exact Or.inr (Or.inl hfd)
        · exact Or.inr (Or.inr ⟨w, List.mem_cons_of_mem _ hw, hpw⟩)

/-! ## Lemmas about the final per-series bucket sort -/

theorem perm_insertBucket (x : Option Nat × Bucket) (m : SeriesMap) :
    List.Perm (insertBucket x m) (x :: m) := by
  induction m with
  | nil => exact List.Perm.refl _
  | cons y t ih =>
    by_cases h : issueKeyLe x.1 y.1
    · simp only [insertBucket, if_pos h]
      exact List.Perm.refl _
    · simp only [insertBucket, if_neg h]
      exact (ih.cons y).trans (List.Perm.swap x y t)

theorem perm_sortBuckets (m : SeriesMap) : List.Perm (sortBuckets m) m := by
  induction m with
  | nil => exact List.Perm.refl _
  | cons y t ih => exact (perm_insertBucket y (sortBuckets t)).trans (ih.cons y)

theorem aGet_congr_perm {κ β : Type} [DecidableEq κ] {l l' : List (κ × β)}
    (hp : List.Perm l l') (hnd : (l.map Prod.fst).Nodup) (k : κ) : aGet k l = aGet k l' := by
  have hnd' : (l'.map Prod.fst).Nodup := ((hp.map Prod.fst).nodup_iff).mp hnd
  cases h : aGet k l with
  | none =>
    have := aGet_eq_none_iff.mp h
    symm
    rw [aGet_eq_none_iff]
    intro hk
    exact this ((hp.map Prod.fst).mem_iff.mpr hk)
  | some v =>
    exact (aGet_eq_some_of_mem (hp.mem_iff.mp (mem_of_aGet h)) hnd').symm

theorem aGet_sortBuckets {m : SeriesMap} (hnd : (m.map Prod.fst).Nodup) (k : Option Nat) :
    aGet k (sortBuckets m) = aGet k m := by
  exact (aGet_congr_perm (perm_sortBuckets m).symm hnd k).symm

theorem issueKeyLe_total (a b : Option Nat) : issueKeyLe a b = true ∨ issueKeyLe b a = true := by
  cases a <;> cases b <;> simp [issueKeyLe] <;> omega

theorem issueKeyLe_trans {a b c : Option Nat} (h1 : issueKeyLe a b = true)
    (h2 : issueKeyLe b c = true) : issueKeyLe a c = true := by
  cases a <;> cases b <;> cases c <;> simp [issueKeyLe] at * <;> omega

theorem mem_insertBucket {x y : Option Nat × Bucket} {m : SeriesMap}
    (h : y ∈ insertBucket x m) : y = x ∨ y ∈ m := by
  have := (perm_insertBucket x m).mem_iff.mp h
  simpa using this

theorem pairwise_insertBucket {x : Option Nat × Bucket} {m : SeriesMap}
    (h : m.Pairwise fun a b => issueKeyLe a.1 b.1 = true) :
    (insertBucket x m).Pairwise fun a b => issueKeyLe a.1 b.1 = true := by
  induction m with
  | nil => simp [insertBucket]
  | cons y t ih =>
    rcases List.pairwise_cons.mp h with ⟨hy, ht⟩
    by_cases hle : issueKeyLe x.1 y.1
    · simp only [insertBucket, hle, if_pos]
      refine List.pairwise_cons.mpr ⟨?_, h⟩
      intro z hz
      rcases List.mem_cons.mp hz with rfl | hzt
      · exact hle
      · exact issueKeyLe_trans hle (hy z hzt)
    · simp only [insertBucket, hle, if_false, Bool.false_eq_true]
      refine List.pairwise_cons.mpr ⟨?_, ih ht⟩
      intro z hz
      rcases mem_insertBucket hz with rfl | hzt
      · rcases issueKeyLe_total z.1 y.1 with h1 | h1
        · exact absurd h1 (by simpa using hle)
        · exact h1
      · exact hy z hzt

theorem pairwise_sortBuckets (m : SeriesMap) :
    (sortBuckets m).Pairwise fun a b => issueKeyLe a.1 b.1 = true := by
  induction m with
  | nil => simp [sortBuckets]
  | cons y t ih => exact pairwise_insertBucket ih

/-! ## Observables of the reconciliation result and their specification

`sGet o s k` is the variant bucket at series `s`, issue `k`; `cGet o s t`
the combo entry at series `s`, combo title `t`.  `bucketSpec` and
`comboSpec` are the spec-shaped characterizations: the bucket holds the
qualifying input records with that key, in input order; the combo entry
holds the last qualifying record with that key. -/

/-- The series-skip condition of the loop: `if not series_name` (absent or
empty series field). -/
def seriesOk (r : Item) : Bool := decide (r.series.getD "" ≠ "")

/-- A record placed as a variant: not a publisher, has a nonempty series,
not a combo. -/
def qualV (r : Item) : Bool := !is_publisher_item r && seriesOk r && !is_combo_item r

/-- A record placed as a combo: not a publisher, has a nonempty series, and
combo-classified. -/
def comboQualV (r : Item) : Bool := !is_publisher_item r && seriesOk r && is_combo_item r

/-- The normalized series key of a record. -/
def normKey (r : Item) : String := normalize_series_name (r.series.getD "")

/-- The combo-title key of a record. -/
def titleKey (r : Item) : String := r.title.getD "Unknown Combo"

/-- The variant entry a record contributes. -/
def entryOf (r : Item) : String × Item := (extract_variant_info r, r)

/-- Bucket lookup in a reconciliation result. -/
def sGet (o : Organized) (s : String) (k : Option Nat) : Bucket :=
  (aGet k ((aGet s o.series).getD [])).getD []

/-- Combo lookup in a reconciliation result. -/
def cGet (o : Organized) (s t : String) : Option ComboEntry :=
  aGet t ((aGet s o.combos).getD [])

/-- Does a record belong in bucket `(s, k)`? -/
def variantPred (s : String) (k : Option Nat) (r : Item) : Bool :=
  qualV r && decide (normKey r = s) && decide (inferIssue r = k)

/-- Modelled from the spec (§4.3): the expected content of bucket `(s, k)`
after reconciling a batch — the qualifying records with that key, in input
order, each with its synthesized descriptor. -/
def bucketSpec (batch : List Item) (s : String) (k : Option Nat) : Bucket :=
  (batch.filter (variantPred s k)).map entryOf

/-- Does a record belong in combo slot `(s, t)`? -/
def comboPred (s t : String) (r : Item) : Bool :=
  comboQualV r && decide (normKey r = s) && decide (titleKey r = t)

/-- Modelled from the spec (§4.3): the expected combo entry at `(s, t)` —
derived from the last qualifying record with that key (last-write-wins). -/
def comboSpec (batch : List Item) (s t : String) : Option ComboEntry :=
  ((batch.filter (comboPred s t)).getLast?).map fun r => ⟨extract_combo_issues r, r⟩

theorem sGet_processItem (acc : Organized) (r : Item) (s : String) (k : Option Nat) :
    sGet (processItem acc r) s k =
      if variantPred s k r then sGet acc s k ++ [entryOf r] else sGet acc s k := by
  by_cases hp : is_publisher_item r = true
  · have hred : processItem acc r = acc := by simp [processItem, hp]
    have hpred : variantPred s k r = false := by simp [variantPred, qualV, hp]
    rw [hred, hpred]
    simp
  · cases hs : r.series with
    | none =>
      have hred : processItem acc r = acc := by simp [processItem, hp, hs]
      have hpred : variantPred s k r = false := by
        simp [variantPred, qualV, seriesOk, hs]
      rw [hred, hpred]
      simp
    | some sn =>
      by_cases hsn : sn = ""
      · have hred : processItem acc r = acc := by simp [processItem, hp, hs, hsn]
        have hpred : variantPred s k r = false := by
          simp [variantPred, qualV, seriesOk, hs, hsn]
        rw [hred, hpred]
        simp
      · by_cases hc : is_combo_item r = true
        · have hred : processItem acc r = { acc with
              combos := updateAssoc (normalize_series_name sn)
                (setAssoc (titleKey r) ⟨extract_combo_issues r, r⟩) [] acc.combos } := by
            simp [processItem, hp, hs, hsn, hc, titleKey]
          have hpred : variantPred s k r = false := by simp [variantPred, qualV, hc]
          rw [hred, hpred]
          simp [sGet]
        · have hred : processItem acc r = { acc with
              series := updateAssoc (normalize_series_name sn)
                (updateAssoc (inferIssue r) (fun b => b ++ [entryOf r]) []) [] acc.series } := by
            simp [processItem, hp, hs, hsn, hc, entryOf]
          have hq : qualV r = true := by simp [qualV, seriesOk, hp, hc, hs, hsn]
          have hnk : normKey r = normalize_series_name sn := by simp [normKey, hs]
          rw [hred]
          by_cases hss : s = normalize_series_name sn
          · by_cases hkk : k = inferIssue r
            · have hpred : variantPred s k r = true := by
                simp [variantPred, hq, hnk, hss, hkk]
              rw [hpred]
              subst hss
              subst hkk
              simp only [sGet, aGet_updateAssoc, if_pos rfl]
              cases h0 : aGet (normKey r) acc.series with
              | none => simp [aGet_updateAssoc, aGet]
              | some m => simp [aGet_updateAssoc]
            · have hki : ¬ (inferIssue r = k) := fun h => hkk h.symm
              have hpred : variantPred s k r = false := by
                simp [variantPred, hki]
              rw [hpred]
              subst hss
              simp only [sGet, aGet_updateAssoc, if_pos rfl]
              cases h0 : aGet (normKey r) acc.series with
              | none => simp [aGet_updateAssoc, if_neg hkk, aGet]
              | some m => simp [aGet_updateAssoc, if_neg hkk]
          · have hsn' : ¬ (normKey r = s) := fun h => hss (hnk ▸ h).symm
            have hpred : variantPred s k r = false := by
              simp [variantPred, hsn']
            rw [hpred]
            simp only [sGet, aGet_updateAssoc, if_neg hss]
            simp

theorem cGet_processItem (acc : Organized) (r : Item) (s t : String) :
    cGet (processItem acc r) s t =
      if comboPred s t r then some { issues := extract_combo_issues r, item := r }
      else cGet acc s t := by
  by_cases hp : is_publisher_item r = true
  · have hred : processItem acc r = acc := by simp [processItem, hp]
    have hpred : comboPred s t r = false := by simp [comboPred, comboQualV, hp]
    rw [hred, hpred]
    simp
  · cases hs : r.series with
    | none =>
      have hred : processItem acc r = acc := by simp [processItem, hp, hs]
      have hpred : comboPred s t r = false := by
        simp [comboPred, comboQualV, seriesOk, hs]
      rw [hred, hpred]
      simp
    | some sn =>
      by_cases hsn : sn = ""
      · have hred : processItem acc r = acc := by simp [processItem, hp, hs, hsn]
        have hpred : comboPred s t r = false := by
          simp [comboPred, comboQualV, seriesOk, hs, hsn]
        rw [hred, hpred]
        simp
      · by_cases hc : is_combo_item r = true
        · have hred : processItem acc r = { acc with
              combos := updateAssoc (normalize_series_name sn)
                (setAssoc (titleKey r) ⟨extract_combo_issues r, r⟩) [] acc.combos } := by
            simp [processItem, hp, hs, hsn, hc, titleKey]
          have hq : comboQualV r = true := by
            simp [comboQualV, seriesOk, hp, hc, hs, hsn]
          have hnk : normKey r = normalize_series_name sn := by simp [normKey, hs]
          rw [hred]
          by_cases hss : s = normalize_series_name sn
          · by_cases htt : t = titleKey r
            · have hpred : comboPred s t r = true := by
                simp [comboPred, hq, hnk, hss, htt]
              rw [hpred]
              subst hss
              subst htt
              simp only [cGet, aGet_updateAssoc, if_pos rfl]
              cases h0 : aGet (normKey r) acc.combos with
              | none => simp [aGet_setAssoc]
              | some m => simp [aGet_setAssoc]
            · have hti : ¬ (titleKey r = t) := fun h => htt h.symm
              have hpred : comboPred s t r = false := by
                simp [comboPred, hti]
              rw [hpred]
              subst hss
              simp only [cGet, aGet_updateAssoc, if_pos rfl]
              cases h0 : aGet (normKey r) acc.combos with
              | none => simp [aGet_setAssoc, if_neg htt, aGet]
              | some m => simp [aGet_setAssoc, if_neg htt]
          · have hsn' : ¬ (normKey r = s) := fun h => hss (hnk ▸ h).symm
            have hpred : comboPred s t r = false := by
              simp [comboPred, hsn']
            rw [hpred]
            simp only [cGet, aGet_updateAssoc, if_neg hss]
            simp
        · have hred : processItem acc r = { acc with
              series := updateAssoc (normalize_series_name sn)
                (updateAssoc (inferIssue r) (fun b => b ++ [entryOf r]) []) [] acc.series } := by
            simp [processItem, hp, hs, hsn, hc, entryOf]
          have hpred : comboPred s t r = false := by
            simp [comboPred, comboQualV, hc]
          rw [hred, hpred]
          simp [cGet]

theorem sGet_foldl (batch : List Item) :
    ∀ acc : Organized, ∀ s k,
      sGet (batch.foldl processItem acc) s k = sGet acc s k ++ bucketSpec batch s k := by
  induction batch with
  | nil =>
    intro acc s k
    simp [bucketSpec]
  | cons r l ih =>
    intro acc s k
    rw [List.foldl_cons, ih, sGet_processItem]
    by_cases hpred : variantPred s k r = true
    · simp [bucketSpec, List.filter_cons, hpred, entryOf]
    · simp only [Bool.not_eq_true] at hpred
      simp [bucketSpec, List.filter_cons, hpred]

theorem cGet_foldl (batch : List Item) :
    ∀ acc : Organized, ∀ s t,
      cGet (batch.foldl processItem acc) s t =
        match comboSpec batch s t with
        | some e => some e
        | none => cGet acc s t := by
  induction batch with
  | nil =>
    intro acc s t
    simp [comboSpec]
  | cons r l ih =>
    intro acc s t
    rw [List.foldl_cons, ih, cGet_processItem]
    by_cases hpred : comboPred s t r = true
    · cases hfl : l.filter (comboPred s t) with
      | nil =>
        simp [comboSpec, List.filter_cons, hpred, hfl]
      | cons x xs =>
        have hlast : ((x :: xs).getLast?).isSome := by
          simp [List.getLast?_isSome]
        obtain ⟨e, he⟩ := Option.isSome_iff_exists.mp hlast
        simp [comboSpec, List.filter_cons, hpred, hfl, he]
    · simp only [Bool.not_eq_true] at hpred
      simp [comboSpec, List.filter_cons, hpred]

/-- Every per-series bucket map in the accumulator has distinct issue keys
(the dict-key invariant needed to commute lookup with the final sort). -/
def NodupInner (o : Organized) : Prop :=
  ∀ p ∈ o.series, (p.2.map Prod.fst).Nodup

theorem nodupInner_processItem {acc : Organized} (h : NodupInner acc) (r : Item) :
    NodupInner (processItem acc r) := by
  by_cases hp : is_publisher_item r = true
  · simpa [processItem, hp] using h
  · cases hs : r.series with
    | none => simpa [processItem, hp, hs] using h
    | some sn =>
      by_cases hsn : sn = ""
      · simpa [processItem, hp, hs, hsn] using h
      · by_cases hc : is_combo_item r = true
        · intro p hmem
          have hmem' : p ∈ acc.series := by
            simpa [processItem, hp, hs, hsn, hc] using hmem
          exact h p hmem'
        · intro p hmem
          have hmem' : p ∈ updateAssoc (normalize_series_name sn)
              (updateAssoc (inferIssue r) (fun b => b ++ [entryOf r]) []) [] acc.series := by
            simpa [processItem, hp, hs, hsn, hc, entryOf] using hmem
          rcases mem_updateAssoc_cases hmem' with hin | hfd | ⟨v, hv, hpv⟩
          · exact h p hin
          · rw [hfd]
            simp [updateAssoc]
          · rw [hpv]
            exact nodup_keys_updateAssoc (h (normalize_series_name sn, v) hv)

theorem nodupInner_foldl (batch : List Item) :
    ∀ acc, NodupInner acc → NodupInner (batch.foldl processItem acc) := by
  induction batch with
  | nil => intro acc h; exact h
  | cons r l ih =>
    intro acc h
    exact ih _ (nodupInner_processItem h r)

/-- Central characterization of the series index: every bucket of the
reconciliation result is exactly the qualifying input records with that
key, in input order, paired with their descriptors. -/
theorem sGet_organize (batch : List Item) (s : String) (k : Option Nat) :
    sGet (organize_comic_data batch) s k = bucketSpec batch s k := by
  have hpre : sGet (batch.foldl processItem {}) s k = bucketSpec batch s k := by
    rw [sGet_foldl batch {} s k]
    simp [sGet, aGet]
  have hnd : NodupInner (batch.foldl processItem {}) :=
    nodupInner_foldl batch {} (by intro p hp; simp at hp)
  rw [← hpre]
  show sGet
      { series := (batch.foldl processItem {}).series.map fun p => (p.1, sortBuckets p.2),
        combos := (batch.foldl processItem {}).combos } s k =
    sGet (batch.foldl processItem {}) s k
  simp only [sGet]
  rw [aGet_mapVal]
  cases h0 : aGet s (batch.foldl processItem {}).series with
  | none => simp
  | some m =>
    simp only [Option.map_some', Option.getD_some]
    rw [aGet_sortBuckets (hnd (s, m) (mem_of_aGet h0))]

/-- Central characterization of the combo index: every combo slot of the
reconciliation result is derived from the last qualifying input record with
that key (last-write-wins). -/
theorem cGet_organize (batch : List Item) (s t : String) :
    cGet (organize_comic_data batch) s t = comboSpec batch s t := by
  have h1 : cGet (organize_comic_data batch) s t =
      cGet (batch.foldl processItem {}) s t := rfl
  rw [h1, cGet_foldl]
  cases h : comboSpec batch s t with
  | none => simp [cGet, aGet]
  | some e => rfl

theorem mem_of_getLast?_eq {α : Type} {l : List α} {a : α} (h : l.getLast? = some a) :
    a ∈ l := by
  obtain ⟨ys, rfl⟩ := List.getLast?_eq_some_iff.mp h
  simp

/-- Memberships of a reconciled bucket come from qualifying batch records
with that key. -/
theorem mem_sGet_organize {batch : List Item} {s : String} {k : Option Nat}
    {e : String × Item} (he : e ∈ sGet (organize_comic_data batch) s k) :
    ∃ x, x ∈ batch ∧ variantPred s k x = true ∧ e = entryOf x := by
  rw [sGet_organize] at he
  obtain ⟨x, hx, rfl⟩ := List.mem_map.mp he
  exact ⟨x, (List.mem_filter.mp hx).1, (List.mem_filter.mp hx).2, rfl⟩

/-- C1: for every input batch, every record that is not a publisher record,
is not combo-classified and has a nonempty `series` field appears in the
reconciliation output as exactly one variant (one occurrence per input
occurrence) in exactly one `(series, issue)` bucket — the bucket keyed by
its normalized series name and inferred issue number — and every record
whose `series` field is absent or empty appears in neither the series index
nor the combo index. -/
theorem claim1_placement (batch : List Item) (r : Item) (hr : r ∈ batch) :
    (qualV r = true →
      ((sGet (organize_comic_data batch) (normKey r) (inferIssue r)).countP
          (fun e => decide (e.2 = r)) =
        batch.countP (fun x => decide (x = r))) ∧
      1 ≤ batch.countP (fun x => decide (x = r)) ∧
      (∀ s k, ¬(s = normKey r ∧ k = inferIssue r) →
        ∀ e ∈ sGet (organize_comic_data batch) s k, ¬(e.2 = r))) ∧
    (seriesOk r = false →
      (∀ s k, ∀ e ∈ sGet (organize_comic_data batch) s k, ¬(e.2 = r)) ∧
      (∀ s t e, cGet (organize_comic_data batch) s t = some e → ¬(e.item = r))) := by
  constructor
  · intro hq
    refine ⟨?_, ?_, ?_⟩
    · rw [sGet_organize]
      unfold bucketSpec
      rw [List.countP_map, List.countP_filter]
      refine List.countP_congr ?_
      intro x hx
      constructor
      · intro h
        exact (Bool.and_eq_true _ _).mp h |>.1
      · intro h
        have hxr : x = r := by simpa using h
        subst hxr
        refine (Bool.and_eq_true _ _).mpr ⟨h, ?_⟩
        simp [variantPred, hq]
    · have : 0 < batch.countP (fun x => decide (x = r)) :=
        List.countP_pos.mpr ⟨r, hr, by simp⟩
      omega
    · intro s k hneq e he h2
      obtain ⟨x, hxb, hxp, hxe⟩ := mem_sGet_organize he
      have hxr : x = r := by
        have : e.2 = x := by rw [hxe]; rfl
        rw [← this, h2]
      subst hxr
      have := hxp
      simp only [variantPred, Bool.and_eq_true, decide_eq_true_eq] at this
      exact hneq ⟨this.1.2.symm, this.2.symm⟩
  · intro hso
    constructor
    · intro s k e he h2
      obtain ⟨x, hxb, hxp, hxe⟩ := mem_sGet_organize he
      have hxr : x = r := by
        have : e.2 = x := by rw [hxe]; rfl
        rw [← this, h2]
      subst hxr
      simp only [variantPred, qualV, Bool.and_eq_true] at hxp
      rw [hso] at hxp
      simp at hxp
    · intro s t e hce h2
      rw [cGet_organize] at hce
      unfold comboSpec at hce
      obtain ⟨x, hx, hxe⟩ := Option.map_eq_some'.mp hce
      have hxmem : x ∈ batch.filter (comboPred s t) := mem_of_getLast?_eq hx
      have hxp := (List.mem_filter.mp hxmem).2
      have hxr : x = r := by
        have : e.item = x := by rw [← hxe]
        rw [← this, h2]
      subst hxr
      simp only [comboPred, comboQualV, Bool.and_eq_true] at hxp
      rw [hso] at hxp
      simp at hxp

/-- A concrete qualifying record for the C1 witness. -/
def wReg : Item := { title := some "Witness Comic", series := some "Witness Series" }

/-- A concrete record without a series field for the C1 witness. -/
def wNoSeries : Item := { title := some "Stray Comic" }

theorem claim1_placement_witness :
    ((sGet (organize_comic_data [wReg, wNoSeries]) (normKey wReg) (inferIssue wReg)).countP
        (fun e => decide (e.2 = wReg)) =
      List.countP (fun x => decide (x = wReg)) [wReg, wNoSeries]) ∧
    (∀ s k, ∀ e ∈ sGet (organize_comic_data [wReg, wNoSeries]) s k, ¬(e.2 = wNoSeries)) := by
  have h1 := claim1_placement [wReg, wNoSeries] wReg (by simp)
  have h2 := claim1_placement [wReg, wNoSeries] wNoSeries (by simp)
  exact ⟨(h1.1 (by decide)).1, (h2.2 (by decide)).1⟩

/-! ## Claims about `normalize_series_name` (C2) -/

theorem ruleOrigins_length {cs : List Char} {r : String}
    (h : ruleOrigins cs = some r) : 2 < r.length := by
  unfold ruleOrigins at h
  cases hg : originsGroup1 cs with
  | none => rw [hg] at h; exact absurd h (by simp)
  | some g =>
    rw [hg] at h
    dsimp only at h
    by_cases hc : !(pyStripL g).isEmpty && decide ((pyStripL g).length > 2)
    · rw [if_pos hc] at h
      have hr : r = String.mk (pyStripL g) := by
        injection h with h'
        exact h'.symm
      have h2 : (pyStripL g).length > 2 := by
        have := (Bool.and_eq_true _ _).mp hc |>.2
        simpa using this
      rw [hr]
      simpa [String.length] using h2
    · rw [if_neg hc] at h
      exact absurd h (by simp)

theorem ruleSep_length {p : Char → Bool} {cs : List Char} {r : String}
    (h : ruleSep p cs = some r) : 2 < r.length := by
  unfold ruleSep at h
  cases hg : splitAtFirst p cs with
  | none => rw [hg] at h; exact absurd h (by simp)
  | some ba =>
    obtain ⟨before, after⟩ := ba
    rw [hg] at h
    dsimp only at h
    by_cases ht : sepTailOk after = true
    · rw [if_pos ht] at h
      by_cases hc : !(pyStripL before).isEmpty && decide ((pyStripL before).length > 2)
      · rw [if_pos hc] at h
        have hr : r = String.mk (pyStripL before) := by
          injection h with h'
          exact h'.symm
        have h2 : (pyStripL before).length > 2 := by
          have := (Bool.and_eq_true _ _).mp hc |>.2
          simpa using this
        rw [hr]
        simpa [String.length] using h2
      · rw [if_neg hc] at h
        exact absurd h (by simp)
    · rw [if_neg ht] at h
      exact absurd h (by simp)

/-- A record with raw series "Yagyaa Origins" for the C2 bucket check. -/
def yagyaaOriginsRec : Item :=
  { title := some "YA", series := some "Yagyaa Origins", issue := some 5 }

/-- A record with raw series "Yagyaa" for the C2 bucket check. -/
def yagyaaRec : Item := { title := some "YB", series := some "Yagyaa", issue := some 1 }

/-- C2 counterexample: the code's plausibility guard checks only the
length of the truncated base, not whether it is purely numeric, so the
Origins rule does fire on "123 Origins" and produces the purely numeric
series name "123". -/
theorem claim2_counterexample :
    normalize_series_name "123 Origins" = "123" ∧
    "123".toList.all isDigitCh = true := by
  constructor
  · rfl
  · decide

/-- C2 (amended): `normalize_series_name` applies three ordered, mutually
exclusive truncation rules — strip a trailing "Origins", truncate at the
first colon, truncate at the first dash/en-dash — only the first rule that
fires is applied, and each rule fires only when it does not shrink the name
to 2 characters or fewer (no purely-numeric guard exists); in particular
"Yagyaa Origins" and "Yagyaa" both normalize to "Yagyaa" and land in the
same series bucket. -/
theorem claim2_normalization :
    (∀ s : String, ∀ r, ruleOrigins s.toList = some r → normalize_series_name s = r) ∧
    (∀ s : String, ∀ r, ruleOrigins s.toList = none →
      ruleSep (fun c => c = ':') s.toList = some r → normalize_series_name s = r) ∧
    (∀ s : String, ∀ r, ruleOrigins s.toList = none →
      ruleSep (fun c => c = ':') s.toList = none →
      ruleSep (fun c => c = '-' || c = '–') s.toList = some r →
      normalize_series_name s = r) ∧
    (∀ s : String, ruleOrigins s.toList = none →
      ruleSep (fun c => c = ':') s.toList = none →
      ruleSep (fun c => c = '-' || c = '–') s.toList = none →
      normalize_series_name s = s) ∧
    (∀ s : String, normalize_series_name s ≠ s → 2 < (normalize_series_name s).length) ∧
    (normalize_series_name "Yagyaa Origins" = "Yagyaa" ∧
      normalize_series_name "Yagyaa" = "Yagyaa" ∧
      ((organize_comic_data [yagyaaOriginsRec, yagyaaRec]).series.map
          fun p => (p.1, p.2.map Prod.fst)) =
        [("Yagyaa", [some 1, some 5])]) := by
  have hrun : ∀ s : String, s ≠ "" → normalize_series_name s =
      ((((ruleOrigins s.toList).orElse fun _ =>
          ruleSep (fun c => c = ':') s.toList).orElse fun _ =>
          ruleSep (fun c => c = '-' || c = '–') s.toList).getD s) := by
    intro s hs
    unfold normalize_series_name
    rw [if_neg hs]
  refine ⟨?_, ?_, ?_, ?_, ?_, ?_, ?_, ?_⟩
  · intro s r h
    by_cases hs : s = ""
    · subst hs
      exact absurd ((by decide : ruleOrigins ("" : String).toList = none) ▸ h) (by simp)
    · rw [hrun s hs, h]
      rfl
  · intro s r h1 h2
    by_cases hs : s = ""
    · subst hs
      exact absurd ((by decide :
        ruleSep (fun c => c = ':') ("" : String).toList = none) ▸ h2) (by simp)
    · rw [hrun s hs, h1, h2]
      rfl
  · intro s r h1 h2 h3
    by_cases hs : s = ""
    · subst hs
      exact absurd ((by decide :
        ruleSep (fun c => c = '-' || c = '–') ("" : String).toList = none) ▸ h3) (by simp)
    · rw [hrun s hs, h1, h2, h3]
      rfl
  · intro s h1 h2 h3
    by_cases hs : s = ""
    · subst hs; rfl
    · rw [hrun s hs, h1, h2, h3]
      rfl
  · intro s hne
    by_cases hs : s = ""
    · subst hs; exact absurd rfl hne
    · cases h1 : ruleOrigins s.toList with
      | some r =>
        have he : normalize_series_name s = r := by rw [hrun s hs, h1]; rfl
        rw [he]
        exact ruleOrigins_length h1
      | none =>
        cases h2 : ruleSep (fun c => c = ':') s.toList with
        | some r =>
          have he : normalize_series_name s = r := by rw [hrun s hs, h1, h2]; rfl
          rw [he]
          exact ruleSep_length h2
        | none =>
          cases h3 : ruleSep (fun c => c = '-' || c = '–') s.toList with
          | some r =>
            have he : normalize_series_name s = r := by rw [hrun s hs, h1, h2, h3]; rfl
            rw [he]
            exact ruleSep_length h3
          | none =>
            have he : normalize_series_name s = s := by rw [hrun s hs, h1, h2, h3]; rfl
            exact absurd he hne
  · rfl
  · rfl
  · decide

theorem claim2_normalization_witness :
    normalize_series_name "Solomon: Born Again" = "Solomon" ∧
    normalize_series_name "Raj Rahman - Variant" = "Raj Rahman" ∧
    2 < (normalize_series_name "Yagyaa Origins").length := by
  have h := claim2_normalization
  refine ⟨?_, ?_, ?_⟩
  · exact h.2.1 "Solomon: Born Again" "Solomon" (by decide) (by decide)
  · exact h.2.2.1 "Raj Rahman - Variant" "Raj Rahman" (by decide) (by decide) (by decide)
  · exact h.2.2.2.2.1 "Yagyaa Origins" (by decide)

/-! ## C4: `extract_combo_issues` on the spec's own examples -/

/-- C4: the range strategy's optional tail makes bare "Issue N" match
strategy (a), so "Mega Combo Issue 1-3" correctly yields [1, 2, 3] but
"Combo Pack Issue 1, 3, 5" yields [1] — the comma-list strategy is
shadowed and never reached. -/
theorem claim4_eval :
    extract_combo_issues { title := some "Mega Combo Issue 1-3" } = [1, 2, 3] ∧
    extract_combo_issues { title := some "Combo Pack Issue 1, 3, 5" } = [1] ∧
    ([1] : List Nat) ≠ [1, 3, 5] := by
  refine ⟨by decide, by decide, by decide⟩

/-! ## C3: issue ordering and variant order preservation -/

theorem map_snd_entryOf (l : List Item) : (l.map entryOf).map Prod.snd = l := by
  induction l with
  | nil => rfl
  | cons x t ih => simp [entryOf, ih]

/-- The four-record batch of the spec's issue-ordering example: issue
numbers 3, absent, 1, 2 under one series. -/
def exC3 : List Item :=
  [{ title := some "T", series := some "S", issue := some 3 },
   { title := some "T", series := some "S" },
   { title := some "T", series := some "S", issue := some 1 },
   { title := some "T", series := some "S", issue := some 2 }]

/-- C3: after reconciliation every series' issue buckets are ordered
ascending by issue number with the absent-number bucket last, the variants
inside any one bucket are exactly the qualifying source records with that
key in input order (never re-sorted), and the [3, absent, 1, 2] example
emits its buckets in the order [1, 2, 3, absent]. -/
theorem claim3_issue_order (batch : List Item) :
    (∀ p ∈ (organize_comic_data batch).series,
      p.2.Pairwise fun a b => issueKeyLe a.1 b.1 = true) ∧
    (∀ s k, (sGet (organize_comic_data batch) s k).map Prod.snd =
      batch.filter (variantPred s k)) ∧
    ((organize_comic_data exC3).series.map fun p => (p.1, p.2.map Prod.fst)) =
      [("S", [some 1, some 2, some 3, none])] := by
  refine ⟨?_, ?_, ?_⟩
  · intro p hp
    have hser : (organize_comic_data batch).series =
        (batch.foldl processItem {}).series.map fun q => (q.1, sortBuckets q.2) := rfl
    rw [hser] at hp
    obtain ⟨q, _, rfl⟩ := List.mem_map.mp hp
    exact pairwise_sortBuckets q.2
  · intro s k
    rw [sGet_organize]
    unfold bucketSpec
    exact map_snd_entryOf _
  · decide

theorem claim3_issue_order_witness :
    (((organize_comic_data exC3).series.getD 0 ("", [])).2.Pairwise
      fun a b => issueKeyLe a.1 b.1 = true) ∧
    (sGet (organize_comic_data exC3) "S" (some 2)).map Prod.snd =
      exC3.filter (variantPred "S" (some 2)) := by
  have h := claim3_issue_order exC3
  exact ⟨h.1 _ (by decide), h.2.1 "S" (some 2)⟩

/-! ## C9: totality and degraded placement -/

/-- C9: extraction and classification are total — on any record they
return a value — and a qualifying record is always placed: a non-publisher,
non-combo record with a nonempty series lands in the bucket keyed by its
normalized series and inferred issue (the absent bucket when no issue
signal parses); a record with an empty title and no language, artist or
binding degrades to the "Standard" descriptor; a record with an empty
title degrades `extract_combo_issues` to the `issue`-field fallback. -/
theorem claim9_totality :
    (∀ batch : List Item, ∀ r ∈ batch, is_publisher_item r = false → seriesOk r = true →
      is_combo_item r = false →
      entryOf r ∈ sGet (organize_comic_data batch) (normKey r) (inferIssue r)) ∧
    (∀ r : Item, r.title.getD "" = "" → r.language.getD "" = "" →
      r.cover_artist.getD "" = "" → r.binding.getD "" = "" →
      extract_variant_info r = "Standard") ∧
    (∀ r : Item, r.title.getD "" = "" →
      extract_combo_issues r =
        (match r.issue with
         | some n => if decide (n ≠ 0) then [n] else []
         | none => [])) := by
  refine ⟨?_, ?_, ?_⟩
  · intro batch r hr hp hso hc
    rw [sGet_organize]
    unfold bucketSpec
    refine List.mem_map.mpr ⟨r, List.mem_filter.mpr ⟨hr, ?_⟩, rfl⟩
    simp [variantPred, qualV, hp, hso, hc]
  · intro r htitle hlang hart hbind
    unfold extract_variant_info withBinding withArtist variantTypesOf
    rw [htitle, hlang, hart, hbind]
    rfl
  · intro r htitle
    cases hi : r.issue with
    | none =>
      unfold extract_combo_issues
      rw [htitle, hi]
      rfl
    | some n =>
      have h0 : extract_combo_issues r =
          sortNats ((if decide (n ≠ 0) = true then [n] else []).eraseDups) := by
        unfold extract_combo_issues
        rw [htitle, hi]
        rfl
      rw [h0]
      by_cases hn : n = 0
      · subst hn; rfl
      · have hd : decide (n ≠ 0) = true := by simp [hn]
        dsimp only
        rw [hd]
        rfl

/-- A degraded record for the C9 witness: no title, no issue signal. -/
def wBare : Item := { series := some "Solo Series" }

theorem claim9_totality_witness :
    entryOf wBare ∈ sGet (organize_comic_data [wBare]) (normKey wBare) (inferIssue wBare) ∧
    extract_variant_info wBare = "Standard" ∧
    extract_combo_issues wBare = [] := by
  have h := claim9_totality
  refine ⟨h.1 [wBare] wBare (by simp) (by decide) (by decide) (by decide), ?_, ?_⟩
  · exact h.2.1 wBare (by decide) (by decide) (by decide) (by decide)
  · exact h.2.2 wBare (by decide)

/-! ## C6: combo classification and last-write-wins -/

/-- The combo keyword set exactly as the claim lists it. -/
def claimComboKeywords : List String :=
  ["combo", "bundle", "set", "pack", "all variants", "combo of", "all variant",
   "variants combo"]

/-- C6: a record whose lowercased title contains any keyword of the claimed
set is combo-classified (and conversely); every combo slot of the output is
derived from the last qualifying record with that (series, title) key, so
duplicate combo titles under one series collapse last-write-wins; a record
present in the batch that combo-qualifies is recorded under its normalized
series and title; and a combo-classified record never appears as a variant
in the series index. -/
theorem claim6_combo :
    (∀ item : Item, is_combo_item item = true ↔
      ∃ kw ∈ claimComboKeywords,
        strContains (pyLower (item.title.getD "")) kw = true) ∧
    (∀ batch : List Item, ∀ s t,
      cGet (organize_comic_data batch) s t = comboSpec batch s t) ∧
    (∀ batch : List Item, ∀ r ∈ batch, comboQualV r = true →
      ∃ e, cGet (organize_comic_data batch) (normKey r) (titleKey r) = some e) ∧
    (∀ batch : List Item, ∀ r : Item, is_combo_item r = true →
      ∀ s k, ∀ e ∈ sGet (organize_comic_data batch) s k, ¬(e.2 = r)) := by
  refine ⟨?_, ?_, ?_, ?_⟩
  · intro item
    simp only [is_combo_item, combo_keywords, claimComboKeywords, List.any_eq_true]
    constructor
    · rintro ⟨kw, hkw, h⟩
      refine ⟨kw, ?_, h⟩
      simp only [List.mem_cons, List.not_mem_nil, or_false] at hkw ⊢
      tauto
    · rintro ⟨kw, hkw, h⟩
      refine ⟨kw, ?_, h⟩
      simp only [List.mem_cons, List.not_mem_nil, or_false] at hkw ⊢
      tauto
  · intro batch s t
    exact cGet_organize batch s t
  · intro batch r hr hq
    rw [cGet_organize]
    unfold comboSpec
    have hmem : r ∈ batch.filter (comboPred (normKey r) (titleKey r)) := by
      refine List.mem_filter.mpr ⟨hr, ?_⟩
      simp [comboPred, hq]
    have hne : batch.filter (comboPred (normKey r) (titleKey r)) ≠ [] :=
      List.ne_nil_of_mem hmem
    obtain ⟨e, he⟩ := Option.isSome_iff_exists.mp (List.getLast?_isSome.mpr hne)
    exact ⟨⟨extract_combo_issues e, e⟩, by rw [he]; rfl⟩
  · intro batch r hc s k e he h2
    obtain ⟨x, _, hxp, hxe⟩ := mem_sGet_organize he
    have hxr : x = r := by
      have : e.2 = x := by rw [hxe]; rfl
      rw [← this, h2]
    subst hxr
    simp only [variantPred, qualV, Bool.and_eq_true] at hxp
    rw [hc] at hxp
    simp at hxp

/-- A combo record for the C6 witness. -/
def wCombo : Item :=
  { title := some "Witness Combo Pack", series := some "Witness Series", price := some "99" }

theorem claim6_combo_witness :
    is_combo_item wCombo = true ∧
    (∃ e, cGet (organize_comic_data [wCombo]) (normKey wCombo) (titleKey wCombo) = some e) ∧
    (∀ s k, ∀ e ∈ sGet (organize_comic_data [wCombo]) s k, ¬(e.2 = wCombo)) := by
  have h := claim6_combo
  refine ⟨?_, ?_, ?_⟩
  · exact (h.1 wCombo).mpr ⟨"combo", by decide, by decide⟩
  · exact h.2.2.1 [wCombo] wCombo (by simp) (by decide)
  · exact h.2.2.2 [wCombo] wCombo (by decide)

/-! ## C7: variant descriptor synthesis and the two-language example -/

/-- The language component of the descriptor. -/
def langParts (item : Item) : List String :=
  if item.language.getD "" != "" then [item.language.getD ""] else []

/-- The cover-artist component of the descriptor. -/
def artistParts (item : Item) : List String :=
  let cover_artist := item.cover_artist.getD ""
  if cover_artist != "" &&
      !isSubL cover_artist.toList
        (String.intercalate " " (variantTypesOf item)).toList then
    ["by " ++ cover_artist]
  else []

/-- The binding component of the descriptor. -/
def bindingParts (item : Item) : List String :=
  let binding := item.binding.getD ""
  if binding != "" && pyLower binding != "paperback" then [binding] else []

/-- Decomposition of `extract_variant_info`: the descriptor is the
space-join of the language, variant-type, artist and binding components in
exactly that order, with the "Standard" fallback when all are empty. -/
theorem extract_variant_info_decomposition (item : Item) :
    extract_variant_info item =
      (let ps := langParts item ++ variantTypesOf item ++ artistParts item ++
        bindingParts item
      pyStrip (String.intercalate " " (if ps.isEmpty then ["Standard"] else ps))) := by
  have hart : withArtist item (variantTypesOf item) =
      variantTypesOf item ++ artistParts item := by
    unfold withArtist artistParts
    by_cases h : (item.cover_artist.getD "" != "") &&
        !isSubL (item.cover_artist.getD "").toList
          (String.intercalate " " (variantTypesOf item)).toList
    · rw [if_pos h, if_pos h]
    · rw [if_neg h, if_neg h]
      simp
  have hbind : ∀ l : List String, withBinding item l = l ++ bindingParts item := by
    intro l
    unfold withBinding bindingParts
    by_cases h : (item.binding.getD "" != "") && (pyLower (item.binding.getD "") != "paperback")
    · rw [if_pos h, if_pos h]
    · rw [if_neg h, if_neg h]
      simp
  unfold extract_variant_info
  rw [hart, hbind]
  have hlang : (if item.language.getD "" != "" then [item.language.getD ""] else []) =
      langParts item := rfl
  dsimp only
  rw [hlang]
  simp [List.append_assoc]

/-- The two records of the spec's end-to-end example. -/
def rajEnglish : Item :=
  { title := some "Raj Rahman 2", series := some "Raj Rahman", issue := some 2,
    language := some "English" }

/-- The Hindi record of the spec's end-to-end example. -/
def rajHindi : Item :=
  { title := some "Raj Rahman 2 Hindi", series := some "Raj Rahman", issue := some 2,
    language := some "Hindi" }

/-- C7: the variant descriptor is built in the order language, then at most
one variant-type keyword (first match of the fixed priority ladder), then
the optional "by artist" suffix, then the binding (suppressed when it is
"Paperback"); when every component is empty the descriptor is "Standard";
and on the two-record example batch the hierarchical projection contains
exactly two variants under series "Raj Rahman", issue 2, with descriptors
"English" and "Hindi" in input order. -/
theorem claim7_descriptor :
    (∀ item : Item, extract_variant_info item =
      (let ps := langParts item ++ variantTypesOf item ++ artistParts item ++
        bindingParts item
      pyStrip (String.intercalate " " (if ps.isEmpty then ["Standard"] else ps)))) ∧
    (∀ item : Item, (variantTypesOf item).length ≤ 1) ∧
    (∀ item : Item, pyLower (item.binding.getD "") = "paperback" →
      bindingParts item = []) ∧
    (∀ item : Item, langParts item = [] → variantTypesOf item = [] →
      artistParts item = [] → bindingParts item = [] →
      extract_variant_info item = "Standard") ∧
    ((format_as_hierarchical_json (organize_comic_data [rajEnglish, rajHindi])).series =
      [("Raj Rahman",
        [("issue_2",
          [⟨"English", none, none, some "Raj Rahman 2"⟩,
           ⟨"Hindi", none, none, some "Raj Rahman 2 Hindi"⟩])])]) := by
  refine ⟨extract_variant_info_decomposition, ?_, ?_, ?_, ?_⟩
  · intro item
    unfold variantTypesOf
    dsimp only
    repeat' split
    all_goals simp
  · intro item h
    unfold bindingParts
    by_cases hb : item.binding.getD "" != ""
    · have : (pyLower (item.binding.getD "") != "paperback") = false := by
        simp [h]
      simp [this]
    · simp only [Bool.not_eq_true] at hb
      simp [hb]
  · intro item h1 h2 h3 h4
    rw [extract_variant_info_decomposition]
    dsimp only
    rw [h1, h2, h3, h4]
    rfl
  · decide

theorem claim7_descriptor_witness :
    extract_variant_info rajHindi = "Hindi" ∧
    extract_variant_info { (({} : Item)) with binding := some "Paperback" } = "Standard" := by
  have h := claim7_descriptor
  constructor
  · rw [h.1 rajHindi]
    rfl
  · refine h.2.2.2.1 _ (by decide) (by decide) (by decide) ?_
    exact h.2.2.1 _ (by decide)

/-! ## C5: binding extraction priority in the bullseye spider -/

/-- The canonical binding labels. -/
def bindingLabels : List String := ["Hardbound", "Paperback", "Hardcover", "Softcover"]

theorem titleBinding_mem {t : String} {b : String} (h : titleBinding t = some b) :
    b ∈ bindingLabels := by
  unfold titleBinding at h
  obtain ⟨pp, hpp, hf⟩ := List.exists_of_findSome?_eq_some h
  have hb : pp.2 = b := by
    by_cases hs : bSearch pp.1.1 pp.1.2 none t.toList = true
    · rw [if_pos hs] at hf
      injection hf
    · rw [if_neg hs] at hf
      exact absurd hf (by simp)
  rw [← hb]
  unfold bindingPatterns at hpp
  simp only [List.mem_cons, List.not_mem_nil, or_false] at hpp
  unfold bindingLabels
  rcases hpp with h1 | h1 | h1 | h1 <;> simp [h1]

theorem valueBinding_mem {v b : String} (h : valueBinding v = some b) :
    b ∈ bindingLabels := by
  unfold valueBinding at h
  dsimp only at h
  unfold bindingLabels
  split at h
  · injection h with h'; simp [← h']
  · split at h
    · injection h with h'; simp [← h']
    · split at h
      · injection h with h'; simp [← h']
      · split at h
        · injection h with h'; simp [← h']
        · exact absurd h (by simp)

theorem metaBinding_mem {ai : List (String × String)} {b : String}
    (h : metaBinding ai = some b) : b ∈ bindingLabels := by
  unfold metaBinding at h
  obtain ⟨kv, _, hf⟩ := List.exists_of_findSome?_eq_some h
  exact valueBinding_mem hf

theorem descBinding_mem {d b : String} (h : descBinding d = some b) :
    b ∈ bindingLabels := by
  unfold descBinding at h
  by_cases hd : d = ""
  · rw [if_pos hd] at h
    exact absurd h (by simp)
  · rw [if_neg hd] at h
    obtain ⟨pp, hpp, hf⟩ := List.exists_of_findSome?_eq_some h
    have hb : pp.2 = b := by
      by_cases hs : bSearch pp.1.1 pp.1.2 none d.toList = true
      · rw [if_pos hs] at hf
        injection hf
      · rw [if_neg hs] at hf
        exact absurd hf (by simp)
    rw [← hb]
    unfold bindingPatterns at hpp
    simp only [List.mem_cons, List.not_mem_nil, or_false] at hpp
    unfold bindingLabels
    rcases hpp with h1 | h1 | h1 | h1 <;> simp [h1]

/-- C5 counterexample: with a binding keyword both in the title and in the
explicit metadata table, the extracted binding comes from the title — the
metadata-derived binding does not override it. -/
theorem claim5_counterexample :
    extractBinding "Paperback Comic" [("Binding", "Hardbound")] "" = some "Paperback" ∧
    metaBinding [("Binding", "Hardbound")] = some "Hardbound" ∧
    extractBinding "Paperback Comic" [("Binding", "Hardbound")] "" ≠
      metaBinding [("Binding", "Hardbound")] := by
  refine ⟨by decide, by decide, by decide⟩

/-- C5 (amended): binding extraction maps fixed keywords to canonical
labels with first match winning, consulting the title, then the explicit
metadata table, then the description, in that priority order; a
metadata-derived binding overrides the description (which is consulted only
when title and metadata both fail) but a title-derived binding takes
precedence over the metadata. -/
theorem claim5_binding_priority :
    (∀ t ai d b, titleBinding t = some b → extractBinding t ai d = some b) ∧
    (∀ t ai d b, titleBinding t = none → metaBinding ai = some b →
      extractBinding t ai d = some b) ∧
    (∀ t ai d, titleBinding t = none → metaBinding ai = none →
      extractBinding t ai d = descBinding d) ∧
    (∀ t ai d b, extractBinding t ai d = some b → b ∈ bindingLabels) := by
  refine ⟨?_, ?_, ?_, ?_⟩
  · intro t ai d b h
    unfold extractBinding
    rw [h]
  · intro t ai d b h1 h2
    unfold extractBinding
    rw [h1, h2]
  · intro t ai d h1 h2
    unfold extractBinding
    rw [h1, h2]
  · intro t ai d b h
    unfold extractBinding at h
    cases h1 : titleBinding t with
    | some b' =>
      rw [h1] at h
      injection h with h'
      exact h' ▸ titleBinding_mem h1
    | none =>
      rw [h1] at h
      cases h2 : metaBinding ai with
      | some b' =>
        rw [h2] at h
        injection h with h'
        exact h' ▸ metaBinding_mem h2
      | none =>
        rw [h2] at h
        exact descBinding_mem h

theorem claim5_binding_priority_witness :
    extractBinding "Paperback Comic" [("Binding", "Hardbound")] "desc" = some "Paperback" ∧
    extractBinding "Plain Comic" [("Binding", "Hardbound")] "softcover here" =
      some "Hardbound" ∧
    extractBinding "Plain Comic" [("k", "v")] "a softcover comic" =
      descBinding "a softcover comic" ∧
    "Paperback" ∈ bindingLabels := by
  have h := claim5_binding_priority
  refine ⟨?_, ?_, ?_, ?_⟩
  · exact h.1 "Paperback Comic" [("Binding", "Hardbound")] "desc" "Paperback" (by decide)
  · exact h.2.1 "Plain Comic" [("Binding", "Hardbound")] "softcover here" "Hardbound"
      (by decide) (by decide)
  · exact h.2.2.1 "Plain Comic" [("k", "v")] "a softcover comic" (by decide) (by decide)
  · exact h.2.2.2 "Paperback Comic" [("Binding", "Hardbound")] "desc" "Paperback"
      (h.1 "Paperback Comic" [("Binding", "Hardbound")] "desc" "Paperback" (by decide))

/-! ## C8: projection determinism and lexicographic series order -/

theorem charListLe_total : ∀ a b : List Char, charListLe a b = true ∨ charListLe b a = true
  | [], _ => Or.inl rfl
  | _ :: _, [] => Or.inr rfl
  | a :: as, b :: bs => by
    by_cases hab : a = b
    · subst hab
      simp only [charListLe, if_pos rfl]
      exact charListLe_total as bs
    · rcases lt_trichotomy a b with h | h | h
      · left
        simp [charListLe, hab, h]
      · exact absurd h hab
      · right
        have hba : ¬ b = a := fun hh => hab hh.symm
        simp [charListLe, hba, h]

theorem charListLe_trans : ∀ a b c : List Char, charListLe a b = true →
    charListLe b c = true → charListLe a c = true
  | [], _, _, _, _ => rfl
  | _ :: _, [], _, h1, _ => by simp [charListLe] at h1
  | _ :: _, _ :: _, [], _, h2 => by simp [charListLe] at h2
  | a :: as, b :: bs, c :: cs, h1, h2 => by
    by_cases hab : a = b
    · subst hab
      rw [charListLe, if_pos rfl] at h1
      by_cases hbc : a = c
      · subst hbc
        rw [charListLe, if_pos rfl] at h2 ⊢
        exact charListLe_trans as bs cs h1 h2
      · rw [charListLe, if_neg hbc] at h2 ⊢
        exact h2
    · rw [charListLe, if_neg hab] at h1
      have hab' : a < b := by simpa using h1
      by_cases hbc : b = c
      · subst hbc
        rw [charListLe, if_neg hab]
        simpa using hab'
      · rw [charListLe, if_neg hbc] at h2
        have hbc' : b < c := by simpa using h2
        have hac : a < c := lt_trans hab' hbc'
        have hne : ¬ a = c := ne_of_lt hac
        rw [charListLe, if_neg hne]
        simpa using hac

theorem strLe_total (a b : String) : strLe a b = true ∨ strLe b a = true :=
  charListLe_total a.toList b.toList

theorem strLe_trans {a b c : String} (h1 : strLe a b = true) (h2 : strLe b c = true) :
    strLe a c = true :=
  charListLe_trans a.toList b.toList c.toList h1 h2

theorem perm_insertStrLe (s : String) (l : List String) :
    List.Perm (insertStrLe s l) (s :: l) := by
  induction l with
  | nil => exact List.Perm.refl _
  | cons t ts ih =>
    by_cases h : strLe s t
    · simp only [insertStrLe, if_pos h]
      exact List.Perm.refl _
    · simp only [insertStrLe, if_neg h]
      exact (ih.cons t).trans (List.Perm.swap s t ts)

theorem mem_insertStrLe {s x : String} {l : List String} (h : x ∈ insertStrLe s l) :
    x = s ∨ x ∈ l := by
  have := (perm_insertStrLe s l).mem_iff.mp h
  simpa using this

theorem pairwise_insertStrLe {s : String} {l : List String}
    (h : l.Pairwise fun a b => strLe a b = true) :
    (insertStrLe s l).Pairwise fun a b => strLe a b = true := by
  induction l with
  | nil => simp [insertStrLe]
  | cons t ts ih =>
    rcases List.pairwise_cons.mp h with ⟨ht, hts⟩
    by_cases hle : strLe s t
    · simp only [insertStrLe, if_pos hle]
      refine List.pairwise_cons.mpr ⟨?_, h⟩
      intro z hz
      rcases List.mem_cons.mp hz with rfl | hzt
      · exact hle
      · exact strLe_trans hle (ht z hzt)
    · simp only [insertStrLe, if_neg hle]
      refine List.pairwise_cons.mpr ⟨?_, ih hts⟩
      intro z hz
      rcases mem_insertStrLe hz with rfl | hzt
      · rcases strLe_total z t with h1 | h1
        · exact absurd h1 (by simpa using hle)
        · exact h1
      · exact ht z hzt

theorem pairwise_sortStrs (l : List String) :
    (sortStrs l).Pairwise fun a b => strLe a b = true := by
  induction l with
  | nil => simp [sortStrs]
  | cons t ts ih => exact pairwise_insertStrLe ih

/-- Extract the name of an emitted series descriptor object; other values
yield nothing. -/
def ooNameOf : J → Option String
  | J.obj fs =>
    (match aGet "object" fs with
     | some (J.s tag) =>
       if tag = "series" then
         match aGet "name" fs with
         | some (J.s nm) => some nm
         | some _ => none
         | none => none
       else none
     | some _ => none
     | none => none)
  | J.s _ => none
  | J.n _ => none
  | J.arr _ => none

/-- The names of the series descriptor objects of the object-oriented
projection, in emission order. -/
def ooSeriesNames (out : List J) : List String := out.filterMap ooNameOf

theorem ooNameOf_mkSeriesObj (org : Organized) (sn : String) :
    ooNameOf (mkSeriesObj org sn) = some sn := by
  unfold mkSeriesObj objSparse
  cases hpub : (firstItemOf ((aGet sn org.series).getD [])).bind fun it => it.publisher with
  | none => rfl
  | some p => rfl

theorem filterMap_map_eq_self {α β : Type} (f : β → Option α) (g : α → β)
    (h : ∀ a, f (g a) = some a) (l : List α) : (l.map g).filterMap f = l := by
  induction l with
  | nil => rfl
  | cons x t ih => simp [h, ih]

theorem map_fst_pair {α : Type} (f : String → α) (l : List String) :
    (l.map fun sn => (sn, f sn)).map Prod.fst = l := by
  induction l with
  | nil => rfl
  | cons x t ih => simp [ih]

/-- C8: both projection formatters are deterministic pure functions of the
reconciliation result — running either twice yields identical output — and
both iterate series (and the hierarchical projection also combos) in
code-point lexicographic order of normalized series name. -/
theorem claim8_projection_determinism (org : Organized) :
    format_as_object_oriented_json org = format_as_object_oriented_json org ∧
    format_as_hierarchical_json org = format_as_hierarchical_json org ∧
    ooSeriesNames (format_as_object_oriented_json org) =
      sortStrs (org.series.map Prod.fst) ∧
    (format_as_hierarchical_json org).series.map Prod.fst =
      sortStrs (org.series.map Prod.fst) ∧
    (format_as_hierarchical_json org).combos.map Prod.fst =
      sortStrs (org.combos.map Prod.fst) ∧
    (ooSeriesNames (format_as_object_oriented_json org)).Pairwise
      (fun a b => strLe a b = true) ∧
    ((format_as_hierarchical_json org).series.map Prod.fst).Pairwise
      (fun a b => strLe a b = true) := by
  have hoo : ooSeriesNames (format_as_object_oriented_json org) =
      sortStrs (org.series.map Prod.fst) := by
    unfold format_as_object_oriented_json ooSeriesNames
    dsimp only
    rw [List.filterMap_append]
    rw [filterMap_map_eq_self ooNameOf (fun sn => mkSeriesObj org sn)
      (ooNameOf_mkSeriesObj org) _]
    have hlist : ∀ xs : List J,
        List.filterMap ooNameOf [J.obj [("object", J.s "list"), ("data", J.arr xs)]] = [] := by
      intro xs
      rfl
    rw [hlist]
    exact List.append_nil _
  have hh1 : (format_as_hierarchical_json org).series.map Prod.fst =
      sortStrs (org.series.map Prod.fst) := by
    unfold format_as_hierarchical_json
    dsimp only
    exact map_fst_pair _ _
  have hh2 : (format_as_hierarchical_json org).combos.map Prod.fst =
      sortStrs (org.combos.map Prod.fst) := by
    unfold format_as_hierarchical_json
    dsimp only
    exact map_fst_pair _ _
  refine ⟨rfl, rfl, hoo, hh1, hh2, ?_, ?_⟩
  · rw [hoo]
    exact pairwise_sortStrs _
  · rw [hh1]
    exact pairwise_sortStrs _

/-! ## C10: the object-oriented projection ignores the combo index -/

/-- C10: the object-oriented projection carries no information about
combos — for any two reconciliation results with the same series index and
arbitrarily different combo indices its output is identical. -/
theorem claim10_oo_ignores_combos (ss : List (String × SeriesMap))
    (c1 c2 : List (String × List (String × ComboEntry))) :
    format_as_object_oriented_json { series := ss, combos := c1 } =
      format_as_object_oriented_json { series := ss, combos := c2 } := rfl

end Scrapper
